import Mathlib

set_option maxHeartbeats 1000000
set_option maxRecDepth 4000

namespace Apostils

/-!
Shallow embedding of the highlight detection and identity-reconciliation
engine of the `Highlighter` class (`src/unnamed/part_001`) of the
obsidian-apostils repository.  Document text is a `List Char` (JS strings are
sequences of UTF-16 code units; all inputs in this development are ASCII so
code units map one-to-one to characters) and character offsets are `Nat`.
Optional TS fields are `Option`s; JS `undefined` is `Option.none`.
-/

/-- JS whitespace test (the regex class `\s`), restricted to the whitespace
characters that can occur in this development: space, tab, newline and
carriage return. -/
def isWsChar (c : Char) : Bool := c = ' ' || c = '\t' || c = '\n' || c = '\r'

/-- JS `String.prototype.trim`. -/
def trimChars (l : List Char) : List Char :=
  ((l.dropWhile isWsChar).reverse.dropWhile isWsChar).reverse

/-- JS `content.charAt i === c`: an out-of-range index yields the empty
string, which is equal to no single character. -/
def charAtIs (l : List Char) (i : Nat) (c : Char) : Bool :=
  match l.drop i with
  | d :: _ => d = c
  | [] => false

/-- JS `content.substring a b` (the arguments are swapped when `a > b`,
which matters when regex matches of the two scanners overlap). -/
def jsSubstring (l : List Char) (a b : Nat) : List Char :=
  (l.drop (min a b)).take (max a b - min a b)

/-- Index of the first occurrence of `c` in the list, if any. -/
def findCharIdx (c : Char) : List Char → Option Nat
  | [] => none
  | d :: rest => if d = c then some 0 else (findCharIdx c rest).map (· + 1)

/-- The backtick character. -/
def btChar : Char := Char.ofNat 96

/-- Stable insertion of `x` into `acc`: `x` goes after every element whose key
is `≤` its own, matching the stability of `Array.prototype.sort`. -/
def insBy (key : α → Nat) (x : α) : List α → List α
  | [] => [x]
  | y :: ys => if key y ≤ key x then y :: insBy key x ys else x :: y :: ys

/-- Stable sort by a `Nat` key (JS `Array.prototype.sort` with the comparator
`(a, b) => key a - key b` is stable). -/
def sortByKey (key : α → Nat) (l : List α) : List α :=
  l.foldl (fun acc x => insBy key x acc) []

/-- The `type` tag of a stored record (`types.ts`). -/
inductive HType
  | highlight
  | comment
  | html
  | custom
deriving DecidableEq, Repr

/-- Kind tag of a raw scanner match.  `detectAndStoreMarkdownHighlights` only
ever pushes `'highlight'` (from `==...==`) and `'comment'` (from `%%...%%`)
into `allMatches`; the `'html'`/custom-pattern paths are dead there, and
`isCustomPattern` is never set. -/
inductive MType
  | highlight
  | comment
deriving DecidableEq, Repr

def MType.toHType : MType → HType
  | .highlight => .highlight
  | .comment => .comment

/-- The `Highlight` record (`types.ts`). -/
structure Highlight where
  id : String
  text : List Char
  tags : List String
  line : Nat
  startOffset : Nat
  endOffset : Nat
  filePath : String
  footnoteCount : Option Nat := none
  footnoteContents : Option (List (List Char)) := none
  color : Option String := none
  collectionIds : Option (List String) := none
  createdAt : Option Nat := none
  isNativeComment : Option Bool := none
  type : Option HType := none
  fullMatch : Option (List Char) := none
deriving DecidableEq, Repr

/-- One entry of `allMatches`: a regex match (`match.index`, full match length
and the first capture group) tagged with its kind and the `skip` flag set by
the adjacent-comment merge pass. -/
structure RawMatch where
  index : Nat
  len : Nat
  body : List Char
  mtype : MType
  skip : Bool := false
deriving DecidableEq, Repr

/-- A `{start, end}` half-open character range (`end` is `stop` here since
`end` is a Lean keyword). -/
structure CRange where
  start : Nat
  stop : Nat
deriving DecidableEq, Repr

/-! ### The two delimiter scanners

`markdownHighlightRegex = /==((?:[^=]|=[^=])+?)==/g` and
`commentHighlightRegex = /%%([^%](?:[^%]|%[^%])*?)%%/g`, with `RegExp.exec`
loop semantics: the engine looks for the leftmost match at or after
`lastIndex`, and `lastIndex` then advances to the end of the match.  The lazy
quantifiers try the closing delimiter before consuming a further body
element, and each body element is deterministic (a non-delimiter character,
or a single delimiter character followed by a non-delimiter one). -/

/-- Body scan of the highlight regex after at least one element has been
consumed: check for the closing `==` first (lazy), then consume one more
element (`[^=]` or `=[^=]`).  Returns the body length on success. -/
def hlBodyAux : List Char → Nat → Option Nat
  | '=' :: '=' :: _, n => some n
  | '=' :: [], _ => none
  | '=' :: _ :: rest, n => hlBodyAux rest (n + 2)
  | _ :: rest, n => hlBodyAux rest (n + 1)
  | [], _ => none

/-- Body scan of the highlight regex: the `+?` quantifier must consume one
element before the first close check. -/
def hlBodyStart : List Char → Option Nat
  | '=' :: '=' :: _ => none
  | '=' :: [] => none
  | '=' :: _ :: rest => hlBodyAux rest 2
  | [] => none
  | _ :: rest => hlBodyAux rest 1

/-- All matches of `markdownHighlightRegex` in the suffix starting at absolute
position `i`, as `(index, length, capture)` triples.  `fuel` exceeds the
number of remaining characters, of which every step consumes at least one
(structural recursion on fuel keeps the definition kernel-reducible). -/
def execHlF : Nat → List Char → Nat → List (Nat × Nat × List Char)
  | 0, _, _ => []
  | _ + 1, [], _ => []
  | fuel + 1, c :: rest, i =>
    if c = '=' then
      match rest with
      | d :: rest2 =>
        if d = '=' then
          match hlBodyStart rest2 with
          | some n => (i, n + 4, rest2.take n) :: execHlF fuel (rest2.drop (n + 2)) (i + n + 4)
          | none => execHlF fuel (d :: rest2) (i + 1)
        else execHlF fuel (d :: rest2) (i + 1)
      | [] => execHlF fuel [] (i + 1)
    else execHlF fuel rest (i + 1)

/-- The highlight-regex exec loop over a whole suffix. -/
def execHl (cs : List Char) (i : Nat) : List (Nat × Nat × List Char) :=
  execHlF (cs.length + 1) cs i

/-- Body scan of the comment regex after the mandatory first `[^%]` character:
check for the closing `%%` first (lazy `*?`), then consume one more element
(`[^%]` or `%[^%]`). -/
def cmBodyAux : List Char → Nat → Option Nat
  | '%' :: '%' :: _, n => some n
  | '%' :: [], _ => none
  | '%' :: _ :: rest, n => cmBodyAux rest (n + 2)
  | _ :: rest, n => cmBodyAux rest (n + 1)
  | [], _ => none

/-- Body scan of the comment regex: the first body character must be `[^%]`. -/
def cmBodyStart : List Char → Option Nat
  | [] => none
  | '%' :: _ => none
  | _ :: rest => cmBodyAux rest 1

/-- All matches of `commentHighlightRegex` in the suffix starting at absolute
position `i` (fuelled like `execHlF`). -/
def execCmF : Nat → List Char → Nat → List (Nat × Nat × List Char)
  | 0, _, _ => []
  | _ + 1, [], _ => []
  | fuel + 1, c :: rest, i =>
    if c = '%' then
      match rest with
      | d :: rest2 =>
        if d = '%' then
          match cmBodyStart rest2 with
          | some n => (i, n + 4, rest2.take n) :: execCmF fuel (rest2.drop (n + 2)) (i + n + 4)
          | none => execCmF fuel (d :: rest2) (i + 1)
        else execCmF fuel (d :: rest2) (i + 1)
      | [] => execCmF fuel [] (i + 1)
    else execCmF fuel rest (i + 1)

/-- The comment-regex exec loop over a whole suffix. -/
def execCm (cs : List Char) (i : Nat) : List (Nat × Nat × List Char) :=
  execCmF (cs.length + 1) cs i

/-! ### Region index: code-block and markdown-link ranges -/

/-- Close scan of the inline-code regex: the lazy body is the shortest
nonempty run of characters other than backtick and newline, ended by a
backtick. -/
def inlineBody : List Char → Nat → Option Nat
  | c :: rest, n =>
    if c = btChar then (if 1 ≤ n then some n else none)
    else if c = '\n' then none
    else inlineBody rest (n + 1)
  | [], _ => none

/-- All matches of the inline-code regex (backtick, nonempty non-newline
body, backtick) as `(start, end)` pairs, from absolute position `i`
(fuelled like `execHlF`). -/
def execInlineCodeF : Nat → List Char → Nat → List (Nat × Nat)
  | 0, _, _ => []
  | _ + 1, [], _ => []
  | fuel + 1, c :: rest, i =>
    if c = btChar then
      (match inlineBody rest 0 with
       | some n => (i, i + n + 2) :: execInlineCodeF fuel (rest.drop (n + 1)) (i + n + 2)
       | none => execInlineCodeF fuel rest (i + 1))
    else execInlineCodeF fuel rest (i + 1)

/-- The inline-code exec loop over a whole suffix. -/
def execInlineCode (cs : List Char) (i : Nat) : List (Nat × Nat) :=
  execInlineCodeF (cs.length + 1) cs i

/-- JS `content.split('\n')`. -/
def splitNl : List Char → List (List Char)
  | [] => [[]]
  | c :: rest =>
    if c = '\n' then [] :: splitNl rest
    else
      match splitNl rest with
      | l :: ls => (c :: l) :: ls
      | [] => [[c]]

/-- Does the line start with three copies of `c` (the `/^```/` and `/^~~~/`
tests)? -/
def startsWith3 (c : Char) : List Char → Bool
  | a :: b :: d :: _ => a = c && b = c && d = c
  | _ => false

/-- Fence type of an open fenced code block. -/
inductive FenceTy
  | backtick
  | wave
deriving DecidableEq, Repr

/-- State of the line-oriented fence scan in `getCodeBlockRanges`:
accumulated ranges, the open block (start offset and fence type, both `none`
when no block is open) and the current line-start offset. -/
structure FenceAcc where
  ranges : List CRange
  blockStart : Option Nat
  blockTy : Option FenceTy
  pos : Nat
deriving Repr

/-- One line of the fence scan.  A line beginning with a 3-backtick marker
closes an open backtick block or opens a new block when none is open; a line
beginning with a 3-tilde marker does the same for wave blocks; a fence line of
the wrong type inside an open block does nothing. -/
def fenceStep (acc : FenceAcc) (line : List Char) : FenceAcc :=
  let lineStart := acc.pos
  let lineEnd := acc.pos + line.length
  let acc1 :=
    if startsWith3 btChar line then
      match acc.blockTy with
      | some FenceTy.backtick =>
        { acc with
          ranges := acc.ranges ++ [⟨acc.blockStart.getD 0, lineEnd⟩]
          blockStart := none
          blockTy := none }
      | _ =>
        if acc.blockStart == none then
          { acc with blockStart := some lineStart, blockTy := some FenceTy.backtick }
        else acc
    else if startsWith3 '~' line then
      match acc.blockTy with
      | some FenceTy.wave =>
        { acc with
          ranges := acc.ranges ++ [⟨acc.blockStart.getD 0, lineEnd⟩]
          blockStart := none
          blockTy := none }
      | _ =>
        if acc.blockStart == none then
          { acc with blockStart := some lineStart, blockTy := some FenceTy.wave }
        else acc
    else acc
  { acc1 with pos := lineEnd + 1 }

/-- `getCodeBlockRanges`: fenced blocks via the line scan (an unclosed fence
extends to the end of the document), then inline code spans, found
independently of the fence state. -/
def getCodeBlockRanges (content : List Char) : List CRange :=
  let final := (splitNl content).foldl fenceStep ⟨[], none, none, 0⟩
  let fenceRanges :=
    final.ranges ++
      (match final.blockStart with
       | some s => [⟨s, content.length⟩]
       | none => [])
  fenceRanges ++ (execInlineCode content 0).map (fun p => ⟨p.1, p.2⟩)

/-- All matches of the markdown-link regex `/\[([^\]]+)\]\(([^)]+)\)/`
attempted at a `[`: the greedy negated classes run to the first `]` and the
first `)`.  Returns `(textLen, urlLen)`. -/
def linkAt (rest : List Char) : Option (Nat × Nat) :=
  match findCharIdx ']' rest with
  | none => none
  | some t =>
    if t = 0 then none
    else
      match rest.drop (t + 1) with
      | '(' :: rest2 =>
        (match findCharIdx ')' rest2 with
         | none => none
         | some u => if u = 0 then none else some (t, u))
      | _ => none

/-- All matches of the markdown-link regex as `(start, end)` pairs (fuelled
like `execHlF`). -/
def execLinkF : Nat → List Char → Nat → List (Nat × Nat)
  | 0, _, _ => []
  | _ + 1, [], _ => []
  | fuel + 1, '[' :: rest, i =>
    (match linkAt rest with
     | some (t, u) => (i, i + t + u + 4) :: execLinkF fuel (rest.drop (t + u + 3)) (i + t + u + 4)
     | none => execLinkF fuel rest (i + 1))
  | fuel + 1, _ :: rest, i => execLinkF fuel rest (i + 1)

/-- The markdown-link exec loop over a whole suffix. -/
def execLink (cs : List Char) (i : Nat) : List (Nat × Nat) :=
  execLinkF (cs.length + 1) cs i

/-- `getMarkdownLinkRanges`. -/
def getMarkdownLinkRanges (content : List Char) : List CRange :=
  (execLink content 0).map (fun p => ⟨p.1, p.2⟩)

/-- `isInsideCodeBlock`: true when the span overlaps any code-block range at
all (`start < range.end && end > range.start`). -/
def isInsideCodeBlock (start stop : Nat) (ranges : List CRange) : Bool :=
  ranges.any fun r => decide (start < r.stop) && decide (stop > r.start)

/-- JS `linkText.indexOf("](")`. -/
def jsIndexOfBracketParen : List Char → Option Nat
  | ']' :: '(' :: _ => some 0
  | _ :: rest => (jsIndexOfBracketParen rest).map (· + 1)
  | [] => none

/-- `isHighlightDelimiterInLink`: true when the opening or closing
2-character delimiter of the match falls inside the URL portion of a link
range (the substring after `](` and before the final `)`). -/
def isHighlightDelimiterInLink (hs he : Nat) (content : List Char)
    (linkRanges : List CRange) : Bool :=
  linkRanges.any fun r =>
    let linkText := jsSubstring content r.start r.stop
    let urlStartOffset :=
      match jsIndexOfBracketParen linkText with
      | some k => k + 2
      | none => 1
    let urlStart := r.start + urlStartOffset
    let urlEnd := r.stop - 1
    (decide (urlStart ≤ hs) && decide (hs + 2 ≤ urlEnd)) ||
      (decide (urlStart ≤ he - 2) && decide (he ≤ urlEnd))

/-! ### Footnote definitions (`extractFootnotes`) -/

/-- The regex class `\w`. -/
def isWordChar (c : Char) : Bool :=
  (decide ('a' ≤ c) && decide (c ≤ 'z')) || (decide ('A' ≤ c) && decide (c ≤ 'Z')) ||
    (decide ('0' ≤ c) && decide (c ≤ '9')) || c = '_'

/-- The characters after the first newline, if any. -/
def afterNl : List Char → Option (List Char)
  | [] => none
  | c :: rest => if c = '\n' then some rest else afterNl rest

/-- Exec loop of `footnoteRegex = /^\[\^(\w+)\]:\s*(.+)$/gm` in
`extractFootnotes`, yielding `(key, trimmed content)` pairs in match order.
`atStart` tracks whether the position is a line start (the `m`-flag `^`); a
position where no match starts is skipped to the next line start.  The greedy
`\s*` may cross newlines; when only whitespace follows the colon up to the end
of the document, backtracking lets `(.+)` match a whitespace run and the
stored content trims to the empty string.  `fuel` bounds the recursion and is
larger than the number of characters, which every step consumes at least one
of. -/
def fnDefsAux : Nat → List Char → Bool → List (List Char × List Char)
  | 0, _, _ => []
  | _ + 1, [], _ => []
  | fuel + 1, '[' :: '^' :: rest, true =>
    let key := rest.takeWhile isWordChar
    (match rest.drop key.length with
     | ']' :: ':' :: rest2 =>
       if key.length > 0 then
         let w := rest2.takeWhile isWsChar
         (match rest2.drop w.length with
          | [] =>
            if w.any (fun d => !(d = '\n') && !(d = '\r')) then [(key, [])] else []
          | d :: rest3 =>
            let cont := (d :: rest3).takeWhile (fun x => !(x = '\n'))
            (key, trimChars cont) :: fnDefsAux fuel ((d :: rest3).drop cont.length) false)
       else
         (match afterNl ('[' :: '^' :: rest) with
          | some tail => fnDefsAux fuel tail true
          | none => [])
     | _ =>
       (match afterNl ('[' :: '^' :: rest) with
        | some tail => fnDefsAux fuel tail true
        | none => []))
  | fuel + 1, cs, _ =>
    (match afterNl cs with
     | some tail => fnDefsAux fuel tail true
     | none => [])

/-- `extractFootnotes`: the document-wide footnote-definition map. -/
def extractFootnotes (content : List Char) : List (List Char × List Char) :=
  fnDefsAux (content.length + 1) content true

/-- `Map.get` for the definition map built with `Map.set`: a later definition
for the same key overwrites an earlier one. -/
def fnLookup (map : List (List Char × List Char)) (k : List Char) : Option (List Char) :=
  (map.reverse.find? (fun p => p.1 == k)).map (fun p => p.2)

/-! ### Inline-footnote manager and footnote regex patterns

The modules `inline-footnote-manager` and `regex-patterns` are imported by
`src/unnamed/part_001` but their sources are not part of the repository
snapshot, so they are modelled from the specification. -/

/-- Modelled from the spec: `InlineFootnoteManager.calculateFootnoteLength`
(module `inline-footnote-manager`, not under `src/`).  Per §4.3 its contract
is: given text starting at a position, return the number of leading characters
that constitute zero or more inline footnotes (`^[content]` blocks), or 0 if
none. -/
def calculateFootnoteLengthF : Nat → List Char → Nat
  | 0, _ => 0
  | fuel + 1, '^' :: '[' :: rest =>
    (match findCharIdx ']' rest with
     | some k => k + 3 + calculateFootnoteLengthF fuel (rest.drop (k + 1))
     | none => 0)
  | _ + 1, _ => 0

/-- Modelled from the spec: the fuelled length probe over a whole text. -/
def calculateFootnoteLength (cs : List Char) : Nat :=
  calculateFootnoteLengthF (cs.length + 1) cs

/-- Modelled from the spec: `InlineFootnoteManager.extractInlineFootnotes`
(module `inline-footnote-manager`, not under `src/`).  Per §4.3 it collects
the inline footnotes (`^[content]` blocks) trailing a highlight, each with its
start index and content; the run stops at the first character that does not
begin an inline footnote. -/
def extractInlineFnAux : Nat → List Char → Nat → List (Nat × List Char)
  | 0, _, _ => []
  | fuel + 1, '^' :: '[' :: rest, i =>
    (match findCharIdx ']' rest with
     | some k => (i, rest.take k) :: extractInlineFnAux fuel (rest.drop (k + 1)) (i + k + 3)
     | none => [])
  | _ + 1, _, _ => []

/-- Modelled from the spec: `extractInlineFootnotes content pos` returns the
inline footnotes that start exactly at `pos`, with absolute start indices. -/
def extractInlineFootnotes (content : List Char) (pos : Nat) : List (Nat × List Char) :=
  extractInlineFnAux (content.length + 1) (content.drop pos) pos

/-- Modelled from the spec: `STANDARD_FOOTNOTE_REGEX` (module
`regex-patterns`, not under `src/`): a standard footnote reference `[^key]`
whose capture group 2 is the key, with a negative lookahead so that footnote
definitions `[^key]: content` are not matched.  Yields `(index, length, key)`
triples under exec-loop semantics. -/
def execStdFnF : Nat → List Char → Nat → List (Nat × Nat × List Char)
  | 0, _, _ => []
  | _ + 1, [], _ => []
  | fuel + 1, '[' :: '^' :: rest, i =>
    let key := rest.takeWhile isWordChar
    let rest2 := rest.drop key.length
    if !(key == []) && (rest2.head? == some ']') && !(rest2.tail.head? == some ':') then
      (i, key.length + 3, key) :: execStdFnF fuel rest2.tail (i + key.length + 3)
    else execStdFnF fuel ('^' :: rest) (i + 1)
  | fuel + 1, _ :: rest, i => execStdFnF fuel rest (i + 1)

/-- Modelled from the spec: the standard-footnote exec loop over a whole
suffix. -/
def execStdFn (cs : List Char) (i : Nat) : List (Nat × Nat × List Char) :=
  execStdFnF (cs.length + 1) cs i

/-- Modelled from the spec: `FOOTNOTE_VALIDATION_REGEX` (module
`regex-patterns`, not under `src/`).  Per §4.3 a standard reference is
accepted only when it appears in an uninterrupted footnote chain after the
previous accepted reference: the preceding text must consist solely of
whitespace and inline footnotes. -/
def validPrecedingF : Nat → List Char → Bool
  | 0, _ => true
  | _ + 1, [] => true
  | fuel + 1, '^' :: '[' :: rest =>
    (match findCharIdx ']' rest with
     | some k => validPrecedingF fuel (rest.drop (k + 1))
     | none => false)
  | fuel + 1, c :: rest => isWsChar c && validPrecedingF fuel rest

/-- Modelled from the spec: the fuelled validation test over a whole text. -/
def validPreceding (cs : List Char) : Bool :=
  validPrecedingF (cs.length + 1) cs

/-! ### Identity reconciler (`findExistingHighlight`) -/

/-- Tier 1 of `findExistingHighlight`: the first prior record not yet
consumed with the same text, the same start and end offsets and the same
`isNativeComment` flag (JS `===` between `undefined` and a boolean is false,
so an unset flag never matches). -/
def tierExactFind (existing : List Highlight) (used : List String)
    (text : List Char) (s e : Nat) (c : Bool) : Option Highlight :=
  existing.find? fun h =>
    !(used.contains h.id) && h.text == text && h.startOffset == s &&
      h.endOffset == e && h.isNativeComment == some c

/-- JS `Math.abs (a - b)` on offsets. -/
def natDist (a b : Nat) : Nat := max a b - min a b

/-- Tier 2 of `findExistingHighlight`: same text and flag, start offset
within 50 characters. -/
def tierFuzzyFind (existing : List Highlight) (used : List String)
    (text : List Char) (s : Nat) (c : Bool) : Option Highlight :=
  existing.find? fun h =>
    !(used.contains h.id) && h.text == text && decide (natDist h.startOffset s ≤ 50) &&
      h.isNativeComment == some c

/-- Tier 3 of `findExistingHighlight`: same text and flag, and no *other*
prior record (consumed or not) has that text and flag.  JS object identity
`other !== h` distinguishes array slots, modelled by indexing the list. -/
def tierUniqueFind (existing : List Highlight) (used : List String)
    (text : List Char) (c : Bool) : Option Highlight :=
  (existing.enum.find? fun p =>
    !(used.contains p.2.id) && p.2.text == text && p.2.isNativeComment == some c &&
      !(existing.enum.any fun q =>
        !(q.1 == p.1) && q.2.text == text && q.2.isNativeComment == some c)).map
    (fun p => p.2)

/-- `findExistingHighlight`: try the exact tier, then the fuzzy-position
tier, then the unique-text tier.  The caller records the id of the returned
record in `usedExistingHighlights` (done inside each tier in the source,
which is the same thing since exactly the returned match is recorded). -/
def findExistingHighlight (existing : List Highlight) (used : List String)
    (text : List Char) (s e : Nat) (c : Bool) : Option Highlight :=
  match tierExactFind existing used text s e c with
  | some h => some h
  | none =>
    match tierFuzzyFind existing used text s c with
    | some h => some h
    | none => tierUniqueFind existing used text c

/-! ### Adjacent-comment merge pass -/

/-- Is there a blank line (the regex `/\n\s*\n/`) in the text?  Equivalent to
the existence of two newlines with only whitespace between them; it suffices
to look, after each newline, past the following run of non-newline
whitespace. -/
def hasBlankLine : List Char → Bool
  | [] => false
  | c :: rest =>
    if c = '\n' then
      (match rest.dropWhile (fun d => isWsChar d && !(d = '\n')) with
       | '\n' :: _ => true
       | _ => hasBlankLine rest)
    else hasBlankLine rest

/-- The adjacency condition of the pre-processing loop: the pair is a
highlight followed by a comment, the text between them is only inline
footnotes and whitespace, there is no blank line after the footnotes, and the
comment capture is nonempty (`next.match[1]` is truthy). -/
def adjCond (content : List Char) (m1 m2 : RawMatch) : Bool :=
  m1.mtype == MType.highlight && m2.mtype == MType.comment &&
    (let between := jsSubstring content (m1.index + m1.len) m2.index
     let after := between.drop (calculateFootnoteLength between)
     after.all isWsChar && !(hasBlankLine after)) &&
    !(m2.body == [])

/-- The adjacency pre-pass over consecutive pairs of `allMatches`: a comment
adjacent to a preceding highlight is marked `skip` and recorded (keyed by the
highlight's position in `allMatches`) with its trimmed text and its actual
start position. -/
def adjGo (content : List Char) (cur : RawMatch) :
    List RawMatch → Nat → List RawMatch × List (Nat × List Char × Nat)
  | [], _ => ([cur], [])
  | m2 :: rest, i =>
    if adjCond content cur m2 then
      let r := adjGo content { m2 with skip := true } rest (i + 1)
      (cur :: r.1, (i, trimChars m2.body, m2.index) :: r.2)
    else
      let r := adjGo content m2 rest (i + 1)
      (cur :: r.1, r.2)

/-- The adjacency pre-pass entry point (the loop body never runs on lists of
fewer than two matches). -/
def adjPass (content : List Char) :
    List RawMatch → Nat → List RawMatch × List (Nat × List Char × Nat)
  | [], _ => ([], [])
  | m :: rest, i => adjGo content m rest i

/-! ### Per-occurrence footnote collection -/

/-- One collected footnote entry: source position and content (the
`'standard'`/`'inline'` tag of the source is never read after collection). -/
structure FEntry where
  index : Nat
  content : List Char
deriving DecidableEq, Repr

/-- The standard-footnote collection loop: walk the matches of the
standard-footnote pattern over the text after the highlight, accepting a
match only when it is contiguous with the previous accepted one
(`match_sf.index === lastValidPosition`) or its preceding text passes the
validation pattern, resolving accepted keys against the definition map
(dropping unknown keys and empty content), and stopping at the first
non-contiguous match. -/
def stdGo (fnMap : List (List Char × List Char)) (after : List Char) (base : Nat) :
    List (Nat × Nat × List Char) → Nat → List FEntry
  | [], _ => []
  | (ri, rlen, key) :: rest, lastValid =>
    if ri == lastValid || validPreceding (jsSubstring after lastValid ri) then
      (match (if key == [] then none else fnLookup fnMap key) with
       | some c => if trimChars c == [] then [] else [⟨base + ri, trimChars c⟩]
       | none => []) ++ stdGo fnMap after base rest (ri + rlen)
    else []

/-- Footnote contents attached to one occurrence: for comments the list is
exactly the occurrence's own text; for highlights the inline footnotes, the
accepted standard references and a merged adjacent comment are gathered and
stably sorted by source position, then projected to contents. -/
def collectFootnotes (content : List Char) (fnMap : List (List Char × List Char))
    (adj : List (Nat × List Char × Nat)) (m : RawMatch) (idx : Nat) : List (List Char) :=
  match m.mtype with
  | .comment => [m.body]
  | .highlight =>
    let base := m.index + m.len
    let after := content.drop base
    let inline := (extractInlineFootnotes content base).filterMap
      (fun p => if trimChars p.2 == [] then none else some (⟨p.1, trimChars p.2⟩ : FEntry))
    let std := stdGo fnMap after base (execStdFn after 0) 0
    let adjE :=
      match adj.find? (fun a => a.1 == idx) with
      | some a => [(⟨a.2.2, a.2.1⟩ : FEntry)]
      | none => []
    (sortByKey (fun e => e.index) (inline ++ std ++ adjE)).map (fun e => e.content)

/-! ### Record emission -/

/-- JS `existingHighlight.createdAt || Date.now()`. -/
def jsOrNow (o : Option Nat) (now : Nat) : Nat :=
  match o with
  | some t => if t = 0 then now else t
  | none => now

/-- `content.substring(0, index).split('\n').length - 1`: the number of
newlines before the offset. -/
def lineOf (content : List Char) (idx : Nat) : Nat :=
  (content.take idx).count '\n'

/-- The record emitted for an occurrence matched against a prior record:
spread of the prior record with the positional, footnote and type fields
overwritten by current-scan values (the match type here is never `'html'`, so
`color` keeps the prior value, and `isCustomPattern` is never set, so `type`
is the match type and `fullMatch` is `undefined`). -/
def carriedRecord (filePath : String) (now : Nat) (content : List Char)
    (e : Highlight) (m : RawMatch) (fns : List (List Char)) : Highlight :=
  { e with
    line := lineOf content m.index
    startOffset := m.index
    endOffset := m.index + m.len
    filePath := filePath
    footnoteCount := some fns.length
    footnoteContents := some fns
    isNativeComment := some (m.mtype == MType.comment)
    color := e.color
    createdAt := some (jsOrNow e.createdAt now)
    type := some m.mtype.toHType
    fullMatch := none }

/-- The record emitted for an unmatched occurrence: fresh id, `createdAt`
synthesized from the file modification time plus `match.index % 1000`. -/
def newRecord (filePath : String) (mtime : Nat) (content : List Char)
    (id : String) (m : RawMatch) (fns : List (List Char)) : Highlight :=
  { id := id
    text := m.body
    tags := []
    line := lineOf content m.index
    startOffset := m.index
    endOffset := m.index + m.len
    filePath := filePath
    footnoteCount := some fns.length
    footnoteContents := some fns
    color := none
    collectionIds := none
    createdAt := some (mtime + m.index % 1000)
    isNativeComment := some (m.mtype == MType.comment)
    type := some m.mtype.toHType
    fullMatch := none }

/-- The `allMatches.forEach` loop: `idx` is the forEach index (skipped
matches still advance it), `used` is `usedExistingHighlights` and `ctr`
drives the fresh-id supply standing in for `generateId`'s randomness. -/
def emitLoop (content : List Char) (filePath : String) (mtime now : Nat)
    (idSupply : Nat → String) (fnMap : List (List Char × List Char))
    (adj : List (Nat × List Char × Nat)) (existing : List Highlight) :
    List RawMatch → Nat → List String → Nat → List Highlight
  | [], _, _, _ => []
  | m :: rest, idx, used, ctr =>
    if m.skip then
      emitLoop content filePath mtime now idSupply fnMap adj existing rest (idx + 1) used ctr
    else if trimChars m.body == [] then
      emitLoop content filePath mtime now idSupply fnMap adj existing rest (idx + 1) used ctr
    else
      let fns := collectFootnotes content fnMap adj m idx
      match findExistingHighlight existing used m.body m.index (m.index + m.len)
          (m.mtype == MType.comment) with
      | some e =>
        carriedRecord filePath now content e m fns ::
          emitLoop content filePath mtime now idSupply fnMap adj existing rest (idx + 1)
            (e.id :: used) ctr
      | none =>
        newRecord filePath mtime content (idSupply ctr) m fns ::
          emitLoop content filePath mtime now idSupply fnMap adj existing rest (idx + 1)
            used (ctr + 1)

/-! ### Scanning, change detection, and the full pipeline -/

/-- The `continue` filters of the highlight scan loop: drop a match
overlapping a code block, a match whose delimiters sit in a link URL, and a
match neighboured by an extra `=` (`content.charAt(-1)` is the empty
string). -/
def hlKeep (content : List Char) (codeRanges linkRanges : List CRange)
    (m : Nat × Nat × List Char) : Bool :=
  !(isInsideCodeBlock m.1 (m.1 + m.2.1) codeRanges) &&
    !(isHighlightDelimiterInLink m.1 (m.1 + m.2.1) content linkRanges) &&
    !(match m.1 with
      | 0 => false
      | Nat.succ k => charAtIs content k '=') &&
    !(charAtIs content (m.1 + m.2.1) '=')

/-- The `continue` filters of the comment scan loop. -/
def cmKeep (content : List Char) (codeRanges linkRanges : List CRange)
    (m : Nat × Nat × List Char) : Bool :=
  !(isInsideCodeBlock m.1 (m.1 + m.2.1) codeRanges) &&
    !(isHighlightDelimiterInLink m.1 (m.1 + m.2.1) content linkRanges) &&
    !(match m.1 with
      | 0 => false
      | Nat.succ k => charAtIs content k '%') &&
    !(charAtIs content (m.1 + m.2.1) '%')

/-- `allMatches` after both scan loops and the sort by match position. -/
def scannedMatches (content : List Char) : List RawMatch :=
  let codeRanges := getCodeBlockRanges content
  let linkRanges := getMarkdownLinkRanges content
  let hs := ((execHl content 0).filter (hlKeep content codeRanges linkRanges)).map
    (fun m => ({ index := m.1, len := m.2.1, body := m.2.2, mtype := MType.highlight } : RawMatch))
  let cs := ((execCm content 0).filter (cmKeep content codeRanges linkRanges)).map
    (fun m => ({ index := m.1, len := m.2.1, body := m.2.2, mtype := MType.comment } : RawMatch))
  sortByKey (fun m => m.index) (hs ++ cs)

/-- One element of the normalized projection used for change detection.  Two
projection lists are equal exactly when their `JSON.stringify` serializations
are byte-identical. -/
structure NormH where
  id : String
  start : Nat
  stop : Nat
  text : List Char
  footnotes : Option Nat
  contents : Option (List (List Char))
  color : Option String
  isNativeComment : Option Bool
deriving DecidableEq, Repr

/-- The normalized projection of one record (`contents` keeps only footnote
contents that do not trim to the empty string). -/
def normH (h : Highlight) : NormH :=
  { id := h.id
    start := h.startOffset
    stop := h.endOffset
    text := h.text
    footnotes := h.footnoteCount
    contents := h.footnoteContents.map (fun l => l.filter (fun c => !(trimChars c == [])))
    color := h.color
    isNativeComment := h.isNativeComment }

/-- The normalized serialization of a record list. -/
def normalizeList (l : List Highlight) : List NormH := l.map normH

/-- Result of one run of `detectAndStoreMarkdownHighlights`: the reconciled
record list and whether it differed from the stored list (only then does the
caller replace the stored list and persist). -/
structure DetectResult where
  newHighlights : List Highlight
  changed : Bool
deriving Repr

/-- `detectAndStoreMarkdownHighlights`: scan, merge adjacent comments,
reconcile against the prior records of the file, and compare the normalized
serializations. -/
def detectAndStoreMarkdownHighlights (content : List Char) (filePath : String)
    (mtime now : Nat) (idSupply : Nat → String) (prior : List Highlight) : DetectResult :=
  let fnMap := extractFootnotes content
  let pass := adjPass content (scannedMatches content) 0
  let news := emitLoop content filePath mtime now idSupply fnMap pass.2 prior pass.1 0 [] 0
  { newHighlights := news
    changed := !(normalizeList prior == normalizeList news) }

/-! ### Duplicate-timestamp cleanup (`fixDuplicateTimestamps`) -/

/-- The iteration order of the insertion-ordered `timestampCounts` map:
distinct truthy `createdAt` values in order of first appearance. -/
def tsKeys (hs : List Highlight) : List Nat :=
  hs.foldl
    (fun acc h =>
      match h.createdAt with
      | some t => if !(t == 0) && !(acc.contains t) then acc ++ [t] else acc
      | none => acc)
    []

/-- The cleanup pass over one file's record list: group records by truthy
`createdAt`, and in every group of size > 1, sort by `startOffset` (JS sort
is stable) and add `+1, +2, …` milliseconds to all but the first.  Array
slots are indexed to model object identity under mutation.  Also returns
whether anything changed (the `hasChanges` flag). -/
def fixFileTimestamps (hs : List Highlight) : List Highlight × Bool :=
  let idxed := hs.enum
  let assigns := (tsKeys hs).flatMap fun t =>
    let group := idxed.filter (fun p => p.2.createdAt == some t)
    if group.length > 1 then
      (sortByKey (fun p => p.2.startOffset) group).enum.filterMap fun q =>
        if q.1 > 0 then some (q.2.1, t + q.1) else none
    else []
  (idxed.map fun p =>
    match assigns.find? (fun a => a.1 == p.1) with
    | some a => { p.2 with createdAt := some a.2 }
    | none => p.2,
   !(assigns == []))

/-- `fixDuplicateTimestamps` over the whole store (a map from file path to
record list), with the `hasChanges` flag that gates persistence. -/
def fixDuplicateTimestamps (store : List (String × List Highlight)) :
    List (String × List Highlight) × Bool :=
  let results := store.map fun p => (p.1, fixFileTimestamps p.2)
  (results.map fun p => (p.1, p.2.1), results.any fun p => p.2.2)

/-! ### Concrete scenario data -/

/-- A deterministic fresh-id supply standing in for `generateId`. -/
def freshIds : Nat → String := fun n => "fresh" ++ toString n

/-- Pipeline run on a string with no prior records. -/
def detStr (s : String) : DetectResult :=
  detectAndStoreMarkdownHighlights s.toList "f.md" 5000 9999 freshIds []

/-- A prior record with text `"same"` for the reconciliation scenario. -/
def samePrior (i : String) (s e ca : Nat) : Highlight :=
  { id := i
    text := "same".toList
    tags := []
    line := 0
    startOffset := s
    endOffset := e
    filePath := "f.md"
    footnoteCount := some 0
    footnoteContents := some []
    createdAt := some ca
    isNativeComment := some false
    type := some HType.highlight }

/-- Document with occurrences of `==same==` at offsets 10 and 700. -/
def sameContent : List Char :=
  List.replicate 10 'x' ++ "==same==".toList ++ List.replicate 682 'x' ++ "==same==".toList

/-- A record with only `startOffset` and `createdAt` relevant, for the
timestamp-cleanup scenario. -/
def tsRecord (s ca : Nat) : Highlight :=
  { id := toString s
    text := "t".toList
    tags := []
    line := 0
    startOffset := s
    endOffset := s + 5
    filePath := "f.md"
    createdAt := some ca }

/-- The skip-independent core of a raw match (the adjacency pass only ever
toggles the `skip` flag). -/
def rawCore (m : RawMatch) : Nat × Nat × List Char × MType :=
  (m.index, m.len, m.body, m.mtype)

/-- An injective fresh-id supply (ids of pairwise distinct lengths), used to
instantiate hypotheses about `generateId` at concrete inputs. -/
def replIds : Nat → String := fun n => String.mk (List.replicate n 'r')

end Apostils

namespace Apostils

/-! ## Helper lemmas -/

theorem contains_true_iff (l : List String) (x : String) : l.contains x = true ↔ x ∈ l := by
  simp [List.contains_iff_exists_mem_beq, beq_iff_eq]

theorem contains_false_iff (l : List String) (x : String) : l.contains x = false ↔ x ∉ l := by
  rw [← Bool.not_eq_true]
  simp [List.contains_iff_exists_mem_beq, beq_iff_eq]

theorem insBy_perm (key : α → Nat) (x : α) (l : List α) : List.Perm (insBy key x l) (x :: l) := by
  induction l with
  | nil => simp [insBy]
  | cons y ys ih =>
    unfold insBy
    by_cases h : key y ≤ key x
    · simp only [if_pos h]
      exact ((ih.cons y).trans (List.Perm.swap x y ys))
    · simp [if_neg h]

theorem foldl_insBy_perm (key : α → Nat) :
    ∀ (l acc : List α), List.Perm (l.foldl (fun a y => insBy key y a) acc) (acc ++ l) := by
  intro l
  induction l with
  | nil => intro acc; simp
  | cons x xs ih =>
    intro acc
    simp only [List.foldl_cons]
    refine (ih _).trans ?_
    refine (List.Perm.append_right xs (insBy_perm key x acc)).trans ?_
    simpa using List.perm_middle.symm

theorem sortByKey_perm (key : α → Nat) (l : List α) : List.Perm (sortByKey key l) l := by
  simpa [sortByKey] using foldl_insBy_perm key l []

theorem execHlF_len_pos : ∀ fuel cs i m, m ∈ execHlF fuel cs i → 0 < m.2.1 := by
  intro fuel
  induction fuel with
  | zero => intro cs i m h; simp [execHlF] at h
  | succ fuel ih =>
    intro cs i m h
    rcases cs with _ | ⟨c, cs'⟩
    · simp [execHlF] at h
    · by_cases hc : c = '='
      · subst hc
        rcases cs' with _ | ⟨d, rest2⟩
        · simp only [execHlF, if_pos rfl] at h
          exact ih _ _ _ h
        · by_cases hd : d = '='
          · subst hd
            simp only [execHlF, if_pos rfl] at h
            rcases hb : hlBodyStart rest2 with _ | n
            · rw [hb] at h
              exact ih _ _ _ h
            · rw [hb] at h
              rcases List.mem_cons.mp h with h1 | h1
              · subst h1; simp
              · exact ih _ _ _ h1
          · simp only [execHlF, if_pos rfl, if_neg hd] at h
            exact ih _ _ _ h
      · simp only [execHlF, if_neg hc] at h
        exact ih _ _ _ h

theorem execCmF_len_pos : ∀ fuel cs i m, m ∈ execCmF fuel cs i → 0 < m.2.1 := by
  intro fuel
  induction fuel with
  | zero => intro cs i m h; simp [execCmF] at h
  | succ fuel ih =>
    intro cs i m h
    rcases cs with _ | ⟨c, cs'⟩
    · simp [execCmF] at h
    · by_cases hc : c = '%'
      · subst hc
        rcases cs' with _ | ⟨d, rest2⟩
        · simp only [execCmF, if_pos rfl] at h
          exact ih _ _ _ h
        · by_cases hd : d = '%'
          · subst hd
            simp only [execCmF, if_pos rfl] at h
            rcases hb : cmBodyStart rest2 with _ | n
            · rw [hb] at h
              exact ih _ _ _ h
            · rw [hb] at h
              rcases List.mem_cons.mp h with h1 | h1
              · subst h1; simp
              · exact ih _ _ _ h1
          · simp only [execCmF, if_pos rfl, if_neg hd] at h
            exact ih _ _ _ h
      · simp only [execCmF, if_neg hc] at h
        exact ih _ _ _ h

theorem adjGo_map_core (content : List Char) :
    ∀ ms cur i, ((adjGo content cur ms i).1).map rawCore = rawCore cur :: ms.map rawCore := by
  intro ms
  induction ms with
  | nil => intro cur i; simp [adjGo]
  | cons m2 rest ih =>
    intro cur i
    unfold adjGo
    by_cases h : adjCond content cur m2 = true
    · simp only [if_pos h, List.map_cons, ih]
      simp [rawCore]
    · simp only [if_neg h, List.map_cons, ih]

theorem adjPass_map_core (content : List Char) :
    ∀ ms i, ((adjPass content ms i).1).map rawCore = ms.map rawCore := by
  intro ms i
  cases ms with
  | nil => simp [adjPass]
  | cons m rest => simp [adjPass, adjGo_map_core]

/-- Soundness of the reconciler: every tier only returns a not-yet-consumed
record of the file with the queried text and comment flag. -/
theorem findExisting_sound (ex : List Highlight) (used : List String) (t : List Char)
    (s e : Nat) (c : Bool) (h : Highlight)
    (hh : findExistingHighlight ex used t s e c = some h) :
    h ∈ ex ∧ used.contains h.id = false ∧ h.text = t ∧ h.isNativeComment = some c := by
  unfold findExistingHighlight at hh
  rcases hx : tierExactFind ex used t s e c with _ | g
  · rcases hf : tierFuzzyFind ex used t s c with _ | g
    · rw [hx, hf] at hh
      unfold tierUniqueFind at hh
      rcases hu : (ex.enum.find? fun p =>
          !(used.contains p.2.id) && p.2.text == t && p.2.isNativeComment == some c &&
            !(ex.enum.any fun q =>
              !(q.1 == p.1) && q.2.text == t && q.2.isNativeComment == some c)) with _ | pr
      · rw [hu] at hh
        simp at hh
      · rw [hu] at hh
        simp only [Option.map_some] at hh
        have hmem := List.mem_of_find?_eq_some hu
        have hp := List.find?_some hu
        have hmem2 : pr.2 ∈ ex := by
          have := List.mem_enum_iff_getElem?.mp hmem
          exact List.getElem?_mem this
        simp only [Bool.and_eq_true, Bool.not_eq_true', beq_iff_eq] at hp
        cases hh
        exact ⟨hmem2, hp.1.1.1, hp.1.1.2, hp.1.2⟩
    · rw [hx, hf] at hh
      cases hh
      have hp := List.find?_some hf
      have hmem := List.mem_of_find?_eq_some hf
      simp only [Bool.and_eq_true, Bool.not_eq_true', beq_iff_eq] at hp
      exact ⟨hmem, hp.1.1.1, hp.1.1.2, hp.2⟩
  · rw [hx] at hh
    cases hh
    have hp := List.find?_some hx
    have hmem := List.mem_of_find?_eq_some hx
    simp only [Bool.and_eq_true, Bool.not_eq_true', beq_iff_eq] at hp
    exact ⟨hmem, hp.1.1.1.1, hp.1.1.1.2, hp.2⟩

/-- Every emitted record takes its offsets, text, comment flag and type from
its occurrence, and a comment occurrence's footnote contents are exactly its
own text. -/
theorem emitLoop_mem_shape (content : List Char) (fp : String) (mtime now : Nat)
    (sup : Nat → String) (fnMap : List (List Char × List Char))
    (adj : List (Nat × List Char × Nat)) (existing : List Highlight) :
    ∀ ms idx used ctr r,
      r ∈ emitLoop content fp mtime now sup fnMap adj existing ms idx used ctr →
      ∃ m ∈ ms, r.startOffset = m.index ∧ r.endOffset = m.index + m.len ∧
        r.text = m.body ∧ r.type = some m.mtype.toHType ∧
        r.isNativeComment = some (m.mtype == MType.comment) ∧
        (m.mtype = MType.comment → r.footnoteContents = some [m.body]) := by
  intro ms
  induction ms with
  | nil => intro idx used ctr r h; simp [emitLoop] at h
  | cons m rest ih =>
    intro idx used ctr r h
    by_cases hsk : m.skip = true
    · simp only [emitLoop, if_pos hsk] at h
      obtain ⟨m', hm', rest'⟩ := ih _ _ _ _ h
      exact ⟨m', List.mem_cons_of_mem _ hm', rest'⟩
    · by_cases htr : (trimChars m.body == []) = true
      · simp only [emitLoop, if_neg hsk, if_pos htr] at h
        obtain ⟨m', hm', rest'⟩ := ih _ _ _ _ h
        exact ⟨m', List.mem_cons_of_mem _ hm', rest'⟩
      · rcases hf : findExistingHighlight existing used m.body m.index (m.index + m.len)
            (m.mtype == MType.comment) with _ | e
        · simp only [emitLoop, if_neg hsk, if_neg htr, hf] at h
          rcases List.mem_cons.mp h with h1 | h1
          · subst h1
            refine ⟨m, List.mem_cons_self m rest, rfl, rfl, rfl, rfl, rfl, ?_⟩
            intro hm
            simp [newRecord, collectFootnotes, hm]
          · obtain ⟨m', hm', rest'⟩ := ih _ _ _ _ h1
            exact ⟨m', List.mem_cons_of_mem _ hm', rest'⟩
        · simp only [emitLoop, if_neg hsk, if_neg htr, hf] at h
          rcases List.mem_cons.mp h with h1 | h1
          · subst h1
            obtain ⟨hmem, hused, htext, hflag⟩ := findExisting_sound _ _ _ _ _ _ _ hf
            refine ⟨m, List.mem_cons_self m rest, rfl, rfl, ?_, rfl, rfl, ?_⟩
            · simpa [carriedRecord] using htext
            · intro hm
              simp [carriedRecord, collectFootnotes, hm]
          · obtain ⟨m', hm', rest'⟩ := ih _ _ _ _ h1
            exact ⟨m', List.mem_cons_of_mem _ hm', rest'⟩

/-- With an injective id supply avoiding the prior ids, the emitted ids are
pairwise distinct: a carried id leaves the used set, and each emitted id is
either a prior id not yet consumed or a fresh id with counter at least
`ctr`. -/
theorem emitLoop_ids (content : List Char) (fp : String) (mtime now : Nat)
    (sup : Nat → String) (fnMap : List (List Char × List Char))
    (adj : List (Nat × List Char × Nat)) (prior : List Highlight)
    (hinj : Function.Injective sup)
    (hfresh : ∀ n, sup n ∉ prior.map (fun h => h.id)) :
    ∀ ms idx used ctr,
      (((emitLoop content fp mtime now sup fnMap adj prior ms idx used ctr).map
          (fun h => h.id)).Nodup) ∧
      (∀ x ∈ (emitLoop content fp mtime now sup fnMap adj prior ms idx used ctr).map
          (fun h => h.id),
        (x ∈ prior.map (fun h => h.id) ∧ x ∉ used) ∨ (∃ n, ctr ≤ n ∧ x = sup n)) := by
  intro ms
  induction ms with
  | nil => intro idx used ctr; simp [emitLoop]
  | cons m rest ih =>
    intro idx used ctr
    by_cases hsk : m.skip = true
    · simpa only [emitLoop, if_pos hsk] using ih (idx + 1) used ctr
    · by_cases htr : (trimChars m.body == []) = true
      · simpa only [emitLoop, if_neg hsk, if_pos htr] using ih (idx + 1) used ctr
      · rcases hf : findExistingHighlight prior used m.body m.index (m.index + m.len)
            (m.mtype == MType.comment) with _ | e
        · simp only [emitLoop, if_neg hsk, if_neg htr, hf, List.map_cons]
          obtain ⟨ihn, ihm⟩ := ih (idx + 1) used (ctr + 1)
          constructor
          · refine List.Nodup.cons ?_ ihn
            intro hx
            rcases ihm _ hx with ⟨hin, _⟩ | ⟨n, hn, hxe⟩
            · exact hfresh ctr (by simpa [newRecord] using hin)
            · have : n = ctr := hinj (by simpa [newRecord] using hxe.symm)
              omega
          · intro x hx
            rcases List.mem_cons.mp hx with h1 | h1
            · exact Or.inr ⟨ctr, Nat.le_refl _, by simpa [newRecord] using h1⟩
            · rcases ihm _ h1 with ⟨hin, hnu⟩ | ⟨n, hn, hxe⟩
              · exact Or.inl ⟨hin, hnu⟩
              · exact Or.inr ⟨n, by omega, hxe⟩
        · obtain ⟨hmem, hused, _, _⟩ := findExisting_sound _ _ _ _ _ _ _ hf
          have hmemid : e.id ∈ prior.map (fun h => h.id) := List.mem_map_of_mem _ hmem
          have husedm : e.id ∉ used := (contains_false_iff _ _).mp hused
          simp only [emitLoop, if_neg hsk, if_neg htr, hf, List.map_cons]
          obtain ⟨ihn, ihm⟩ := ih (idx + 1) (e.id :: used) ctr
          constructor
          · refine List.Nodup.cons ?_ ihn
            intro hx
            rcases ihm _ hx with ⟨_, hnu⟩ | ⟨n, _, hxe⟩
            · exact hnu (by simp [carriedRecord])
            · refine hfresh n ?_
              rw [← hxe]
              simpa [carriedRecord] using hmemid
          · intro x hx
            rcases List.mem_cons.mp hx with h1 | h1
            · refine Or.inl ⟨?_, ?_⟩
              · rw [h1]; simpa [carriedRecord] using hmemid
              · rw [h1]; simpa [carriedRecord] using husedm
            · rcases ihm _ h1 with ⟨hin, hnu⟩ | hr
              · exact Or.inl ⟨hin, fun hc => hnu (List.mem_cons_of_mem _ hc)⟩
              · exact Or.inr hr

theorem scannedMatches_len_pos (content : List Char) :
    ∀ m ∈ scannedMatches content, 0 < m.len := by
  intro m hm
  simp only [scannedMatches] at hm
  have hm2 := (sortByKey_perm (fun m : RawMatch => m.index) _).mem_iff.mp hm
  rcases List.mem_append.mp hm2 with h1 | h1
  · obtain ⟨p, hp, hpe⟩ := List.mem_map.mp h1
    have hp2 := List.mem_filter.mp hp
    have hpos := execHlF_len_pos _ _ _ _ (by simpa [execHl] using hp2.1)
    rw [← hpe]
    simpa using hpos
  · obtain ⟨p, hp, hpe⟩ := List.mem_map.mp h1
    have hp2 := List.mem_filter.mp hp
    have hpos := execCmF_len_pos _ _ _ _ (by simpa [execCm] using hp2.1)
    rw [← hpe]
    simpa using hpos

theorem passMatches_len_pos (content : List Char) :
    ∀ m ∈ (adjPass content (scannedMatches content) 0).1, 0 < m.len := by
  intro m hm
  have h1 : rawCore m ∈ ((adjPass content (scannedMatches content) 0).1).map rawCore :=
    List.mem_map_of_mem _ hm
  rw [adjPass_map_core] at h1
  obtain ⟨m', hm', he⟩ := List.mem_map.mp h1
  have hpos := scannedMatches_len_pos content m' hm'
  have hlen : m'.len = m.len := congrArg (fun q => q.2.1) he
  omega

theorem replIds_injective : Function.Injective replIds := by
  intro a b h
  have := congrArg (fun s => s.data.length) h
  simpa [replIds] using this

/-- If a record with the occurrence's exact tuple sits right after a prefix
of records whose ids are all consumed, the reconciler returns it (tier 1). -/
theorem tierExact_first (done suf : List Highlight) (used : List String) (r : Highlight)
    (t : List Char) (s e : Nat) (c : Bool)
    (hdone : ∀ d ∈ done, used.contains d.id = true)
    (hr : used.contains r.id = false) (ht : r.text = t) (hs : r.startOffset = s)
    (he : r.endOffset = e) (hc : r.isNativeComment = some c) :
    findExistingHighlight (done ++ r :: suf) used t s e c = some r := by
  have hx : tierExactFind (done ++ r :: suf) used t s e c = some r := by
    unfold tierExactFind
    rw [List.find?_append]
    have h1 : (done.find? fun h =>
        !(used.contains h.id) && h.text == t && h.startOffset == s &&
          h.endOffset == e && h.isNativeComment == some c) = none := by
      rw [List.find?_eq_none]
      intro d hd
      simp only [hdone d hd, Bool.not_true, Bool.false_and]
      simp
    rw [h1, Option.none_or]
    rw [List.find?_cons_of_pos _
      (by simp [ht, hs, he, hc, (contains_false_iff _ _).mp hr])]
  unfold findExistingHighlight
  rw [hx]

theorem normH_carried (fp : String) (now : Nat) (content : List Char) (r : Highlight)
    (m : RawMatch) (fns : List (List Char))
    (h1 : r.startOffset = m.index) (h2 : r.endOffset = m.index + m.len)
    (h3 : r.footnoteCount = some fns.length) (h4 : r.footnoteContents = some fns)
    (h5 : r.isNativeComment = some (m.mtype == MType.comment)) :
    normH (carriedRecord fp now content r m fns) = normH r := by
  simp [normH, carriedRecord, h1, h2, h3, h4, h5]

/-- One step of the re-scan fixpoint: an occurrence whose own run-1 record is
the first not-yet-consumed record of the stored list re-matches it by tier 1
and re-emits a record with the same normalized projection. -/
theorem emitLoop_fix_cons (content : List Char) (fp : String) (mtime2 now2 : Nat)
    (sup2 : Nat → String) (fnMap : List (List Char × List Char))
    (adj : List (Nat × List Char × Nat)) (done suf : List Highlight) (r : Highlight)
    (m : RawMatch) (rest : List RawMatch) (idx : Nat) (used2 : List String) (ctr2 : Nat)
    (hsk : ¬ (m.skip = true)) (htr : ¬ ((trimChars m.body == []) = true))
    (hused : ∀ x : String, x ∈ used2 ↔ x ∈ done.map (fun h => h.id))
    (hnodup : ((done ++ r :: suf).map (fun h => h.id)).Nodup)
    (hstart : r.startOffset = m.index) (hend : r.endOffset = m.index + m.len)
    (htext : r.text = m.body) (hflag : r.isNativeComment = some (m.mtype == MType.comment))
    (hcount : r.footnoteCount = some (collectFootnotes content fnMap adj m idx).length)
    (hcont : r.footnoteContents = some (collectFootnotes content fnMap adj m idx))
    (hrec : normalizeList (emitLoop content fp mtime2 now2 sup2 fnMap adj
        (done ++ r :: suf) rest (idx + 1) (r.id :: used2) ctr2) = normalizeList suf) :
    normalizeList (emitLoop content fp mtime2 now2 sup2 fnMap adj (done ++ r :: suf)
      (m :: rest) idx used2 ctr2) = normalizeList (r :: suf) := by
  have hdone : ∀ d ∈ done, used2.contains d.id = true := by
    intro d hd
    exact (contains_true_iff _ _).mpr ((hused d.id).mpr (List.mem_map_of_mem _ hd))
  have hrid : used2.contains r.id = false := by
    apply (contains_false_iff _ _).mpr
    intro hin
    have h1 : r.id ∈ done.map (fun h => h.id) := (hused _).mp hin
    rw [List.map_append] at hnodup
    obtain ⟨-, -, hdisj⟩ := List.nodup_append.mp hnodup
    exact hdisj h1 (by simp)
  have hfind := tierExact_first done suf used2 r m.body m.index (m.index + m.len)
    (m.mtype == MType.comment) hdone hrid htext hstart hend hflag
  simp only [emitLoop, if_neg hsk, if_neg htr, hfind]
  simp only [normalizeList, List.map_cons]
  rw [normH_carried fp now2 content r m _ hstart hend hcount hcont hflag]
  exact congrArg (List.cons (normH r)) hrec

/-- The re-scan fixpoint: reconciling the same occurrence list against the
records it previously produced (id-distinct, after a consumed prefix)
re-emits a list with the same normalized projection. -/
theorem emitLoop_fix (content : List Char) (fp : String)
    (mtime1 now1 mtime2 now2 : Nat) (sup1 sup2 : Nat → String)
    (fnMap : List (List Char × List Char)) (adj : List (Nat × List Char × Nat))
    (prior : List Highlight) :
    ∀ ms idx used1 ctr1 done used2 ctr2,
      (∀ x : String, x ∈ used2 ↔ x ∈ done.map (fun h => h.id)) →
      (((done ++ emitLoop content fp mtime1 now1 sup1 fnMap adj prior ms idx used1 ctr1).map
          (fun h => h.id)).Nodup) →
      normalizeList (emitLoop content fp mtime2 now2 sup2 fnMap adj
        (done ++ emitLoop content fp mtime1 now1 sup1 fnMap adj prior ms idx used1 ctr1)
        ms idx used2 ctr2) =
      normalizeList (emitLoop content fp mtime1 now1 sup1 fnMap adj prior ms idx used1 ctr1) := by
  intro ms
  induction ms with
  | nil =>
    intro idx used1 ctr1 done used2 ctr2 hused hnodup
    simp [emitLoop, normalizeList]
  | cons m rest ih =>
    intro idx used1 ctr1 done used2 ctr2 hused hnodup
    by_cases hsk : m.skip = true
    · simp only [emitLoop, if_pos hsk] at hnodup ⊢
      exact ih (idx + 1) used1 ctr1 done used2 ctr2 hused hnodup
    · by_cases htr : (trimChars m.body == []) = true
      · simp only [emitLoop, if_neg hsk, if_pos htr] at hnodup ⊢
        exact ih (idx + 1) used1 ctr1 done used2 ctr2 hused hnodup
      · rcases hf : findExistingHighlight prior used1 m.body m.index (m.index + m.len)
            (m.mtype == MType.comment) with _ | e
        · set r := newRecord fp mtime1 content (sup1 ctr1) m
            (collectFootnotes content fnMap adj m idx) with hrdef
          set suf := emitLoop content fp mtime1 now1 sup1 fnMap adj prior rest (idx + 1)
            used1 (ctr1 + 1) with hsufdef
          have hrun1 : emitLoop content fp mtime1 now1 sup1 fnMap adj prior (m :: rest)
              idx used1 ctr1 = r :: suf := by
            simp only [emitLoop, if_neg hsk, if_neg htr, hf, hrdef, hsufdef]
          rw [hrun1] at hnodup ⊢
          have hassoc : (done ++ [r]) ++ suf = done ++ r :: suf := by simp
          refine emitLoop_fix_cons content fp mtime2 now2 sup2 fnMap adj done suf r m rest
            idx used2 ctr2 hsk htr hused hnodup rfl rfl rfl rfl rfl rfl ?_
          have hused2 : ∀ x : String, x ∈ r.id :: used2 ↔ x ∈ (done ++ [r]).map
              (fun h => h.id) := by
            intro x
            simp only [List.mem_cons, List.map_append, List.mem_append, List.map_cons,
              List.map_nil, List.mem_singleton, hused x]
            tauto
          have hnodup2 : (((done ++ [r]) ++ suf).map (fun h => h.id)).Nodup := by
            rw [hassoc]; exact hnodup
          have hres := ih (idx + 1) used1 (ctr1 + 1) (done ++ [r]) (r.id :: used2) ctr2
            hused2 hnodup2
          rw [hassoc] at hres
          exact hres
        · obtain ⟨hmem, hused1e, htexte, hflage⟩ := findExisting_sound _ _ _ _ _ _ _ hf
          set r := carriedRecord fp now1 content e m
            (collectFootnotes content fnMap adj m idx) with hrdef
          set suf := emitLoop content fp mtime1 now1 sup1 fnMap adj prior rest (idx + 1)
            (e.id :: used1) ctr1 with hsufdef
          have hrun1 : emitLoop content fp mtime1 now1 sup1 fnMap adj prior (m :: rest)
              idx used1 ctr1 = r :: suf := by
            simp only [emitLoop, if_neg hsk, if_neg htr, hf, hrdef, hsufdef]
          rw [hrun1] at hnodup ⊢
          have hassoc : (done ++ [r]) ++ suf = done ++ r :: suf := by simp
          have htextr : r.text = m.body := by
            rw [hrdef]; simpa [carriedRecord] using htexte
          refine emitLoop_fix_cons content fp mtime2 now2 sup2 fnMap adj done suf r m rest
            idx used2 ctr2 hsk htr hused hnodup rfl rfl htextr rfl rfl rfl ?_
          have hused2 : ∀ x : String, x ∈ r.id :: used2 ↔ x ∈ (done ++ [r]).map
              (fun h => h.id) := by
            intro x
            simp only [List.mem_cons, List.map_append, List.mem_append, List.map_cons,
              List.map_nil, List.mem_singleton, hused x]
            tauto
          have hnodup2 : (((done ++ [r]) ++ suf).map (fun h => h.id)).Nodup := by
            rw [hassoc]; exact hnodup
          have hres := ih (idx + 1) (e.id :: used1) ctr1 (done ++ [r]) (r.id :: used2) ctr2
            hused2 hnodup2
          rw [hassoc] at hres
          exact hres

/-- Full unfolding of one pipeline run. -/
theorem detect_unfold (content : List Char) (fp : String) (mtime now : Nat)
    (sup : Nat → String) (prior : List Highlight) :
    detectAndStoreMarkdownHighlights content fp mtime now sup prior =
      { newHighlights := emitLoop content fp mtime now sup (extractFootnotes content)
          (adjPass content (scannedMatches content) 0).2 prior
          (adjPass content (scannedMatches content) 0).1 0 [] 0
        changed := !(normalizeList prior ==
          normalizeList (emitLoop content fp mtime now sup (extractFootnotes content)
            (adjPass content (scannedMatches content) 0).2 prior
            (adjPass content (scannedMatches content) 0).1 0 [] 0)) } := rfl

/-! ## Claim theorems -/

/-- C4: a comment match following a highlight match with only inline
footnotes/whitespace and no blank line between them is merged into the
highlight instead of being emitted separately: when the adjacency condition
holds, the pre-pass records the comment's trimmed text at the highlight's
loop index and marks the comment match `skip`, and the emission loop
produces no record for a skipped match.  Concretely,
`==main idea==%% aside %%` yields exactly one record, of kind highlight,
with footnote contents `["aside"]` and no separate comment record; with a
blank line between them (`==main idea==\n\n%% aside %%`) two independent
records are emitted, a highlight with empty footnote contents and a comment
record. -/
theorem claim_C4_adjacent_comment_merge :
    (∀ content cur m2 rest i, adjCond content cur m2 = true →
        adjGo content cur (m2 :: rest) i =
          (cur :: (adjGo content { m2 with skip := true } rest (i + 1)).1,
           (i, trimChars m2.body, m2.index) ::
             (adjGo content { m2 with skip := true } rest (i + 1)).2)) ∧
    (∀ content fp mtime now sup fnMap adj existing m ms idx used ctr, m.skip = true →
        emitLoop content fp mtime now sup fnMap adj existing (m :: ms) idx used ctr =
          emitLoop content fp mtime now sup fnMap adj existing ms (idx + 1) used ctr) ∧
    (detStr "==main idea==%% aside %%").newHighlights.map
        (fun h => (h.type, h.footnoteContents)) =
      [(some HType.highlight, some ["aside".toList])] ∧
    (detStr "==main idea==\n\n%% aside %%").newHighlights.map
        (fun h => (h.type, h.footnoteContents, h.text)) =
      [(some HType.highlight, some [], "main idea".toList),
       (some HType.comment, some [" aside ".toList], " aside ".toList)] := by
  refine ⟨?_, ?_, by decide, by decide⟩
  · intro content cur m2 rest i h
    simp [adjGo, h]
  · intro content fp mtime now sup fnMap adj existing m ms idx used ctr h
    simp [emitLoop, h]

/-- C4 witness: a skipped match emits no record at a concrete input. -/
theorem claim_C4_witness :
    emitLoop [] "f.md" 0 0 freshIds [] [] []
        [{ index := 0, len := 1, body := ['b'], mtype := MType.comment, skip := true }]
        0 [] 0 =
      emitLoop [] "f.md" 0 0 freshIds [] [] [] [] 1 [] 0 :=
  claim_C4_adjacent_comment_merge.2.1 [] "f.md" 0 0 freshIds [] [] []
    { index := 0, len := 1, body := ['b'], mtype := MType.comment, skip := true }
    [] 0 [] 0 rfl

/-- C6: a highlight or comment match immediately preceded or followed by an
extra instance of its own delimiter character is discarded (the scan-loop
filter rejects it), and concretely `===strict===` yields zero occurrences
while `==ok==` yields exactly one. -/
theorem claim_C6_doubled_delimiter_suppression :
    (∀ content codeRanges linkRanges (m : Nat × Nat × List Char),
        charAtIs content (m.1 + m.2.1) '=' = true →
        hlKeep content codeRanges linkRanges m = false) ∧
    (∀ content codeRanges linkRanges (m : Nat × Nat × List Char) k,
        m.1 = k + 1 → charAtIs content k '=' = true →
        hlKeep content codeRanges linkRanges m = false) ∧
    (∀ content codeRanges linkRanges (m : Nat × Nat × List Char),
        charAtIs content (m.1 + m.2.1) '%' = true →
        cmKeep content codeRanges linkRanges m = false) ∧
    (∀ content codeRanges linkRanges (m : Nat × Nat × List Char) k,
        m.1 = k + 1 → charAtIs content k '%' = true →
        cmKeep content codeRanges linkRanges m = false) ∧
    (detStr "===strict===").newHighlights = [] ∧
    (detStr "==ok==").newHighlights.map (fun h => h.text) = ["ok".toList] := by
  refine ⟨?_, ?_, ?_, ?_, by decide, by decide⟩
  · intro content codeRanges linkRanges m h
    simp [hlKeep, h]
  · intro content codeRanges linkRanges m k hk h
    simp [hlKeep, hk, h]
  · intro content codeRanges linkRanges m h
    simp [cmKeep, h]
  · intro content codeRanges linkRanges m k hk h
    simp [cmKeep, hk, h]

/-- C6 witness: a match ending right before an extra `=` is rejected by the
filter at a concrete input. -/
theorem claim_C6_witness :
    hlKeep ("==".toList) [] [] (0, 0, []) = false :=
  claim_C6_doubled_delimiter_suppression.1 ("==".toList) [] [] (0, 0, []) (by decide)

/-- C5 (counterexample): on input `==kept==[a](b)` the pipeline emits exactly
one record, but its text is just `kept` — it does not contain the link
`[a](b)` as plain text, contrary to the claim's wording. -/
theorem claim_C5_counterexample :
    (detStr "==kept==[a](b)").newHighlights.map (fun h => h.text) = ["kept".toList] ∧
    ¬ ("[a](b)".toList <:+: "kept".toList) := by
  constructor
  · decide
  · decide

/-- C5 (amended): a marker inside a fenced/inline code block or whose
delimiters fall inside a link URL never appears in the occurrence list — a
backtick-wrapped `==not a highlight==` yields zero occurrences and
`[link](==weird==)` yields zero occurrences; `==kept==[a](b)` yields exactly
one occurrence whose text is `kept`, the trailing link lying outside the
occurrence's span. -/
theorem claim_C5_delimiter_suppression_amended :
    (detStr "`==not a highlight==`").newHighlights = [] ∧
    (detStr "[link](==weird==)").newHighlights = [] ∧
    (detStr "==kept==[a](b)").newHighlights.map
        (fun h => (h.text, h.startOffset, h.endOffset)) = [("kept".toList, 0, 8)] := by
  refine ⟨by decide, by decide, by decide⟩

/-- C7: inline and standard footnotes attached to a highlight are merged in
source-position order, the standard `[^a]` reference being resolved against
the document-wide definition map, wherever the `[^a]:` definition line
appears: with the definition line before or after the highlight line,
`==hl==^[inline note][^a]` yields footnote contents
`["inline note", "content A"]` in that order. -/
theorem claim_C7_footnote_ordering :
    (detStr "[^a]: content A\n==hl==^[inline note][^a]").newHighlights.map
        (fun h => h.footnoteContents) = [some ["inline note".toList, "content A".toList]] ∧
    (detStr "==hl==^[inline note][^a]\n[^a]: content A").newHighlights.map
        (fun h => h.footnoteContents) = [some ["inline note".toList, "content A".toList]] := by
  constructor
  · decide
  · decide

/-- C3 (code bug): the cleanup pass reorders each group of records sharing a
truthy `createdAt` by `startOffset` and adds `+1, +2, …` to all but the
first, but it does not prevent the incremented timestamps from colliding with
a different group: on records with timestamps `100, 100, 101` (start offsets
`0, 10, 20`) the second record becomes `101` and now collides with the third,
so two records still share a `createdAt` after cleanup, contrary to the
claim's final conjunct and to the function's own documentation. -/
theorem claim_C3_timestamp_cleanup_collision :
    ((fixFileTimestamps [tsRecord 0 100, tsRecord 10 100, tsRecord 20 101]).1.map
        (fun h => h.createdAt)) = [some 100, some 101, some 101] ∧
    ¬ List.Pairwise (fun a b => a.createdAt ≠ b.createdAt)
        (fixFileTimestamps [tsRecord 0 100, tsRecord 10 100, tsRecord 20 101]).1 := by
  constructor
  · decide
  · decide

/-- C10: code-block suppression is overlap-based, strictly stronger than
"fully inside": a span is suppressed exactly when it starts before some
range's end and ends after that range's start.  Concretely, in the document
consisting of a backtick inline-code span `x==` followed by `y==`, the single
highlight match spans offsets 2–8, the single code range is 0–5, the match is
not fully inside the range yet overlaps it, and the occurrence list is
empty. -/
theorem claim_C10_overlap_suppression :
    (∀ s e ranges, isInsideCodeBlock s e ranges = true ↔
        ∃ r ∈ ranges, s < r.stop ∧ r.start < e) ∧
    (execHl "`x==`y==".toList 0).map (fun m => (m.1, m.1 + m.2.1)) = [(2, 8)] ∧
    getCodeBlockRanges "`x==`y==".toList = [⟨0, 5⟩] ∧
    (2 < 5 ∧ 0 < 8 ∧ ¬ (8 ≤ 5)) ∧
    (detStr "`x==`y==").newHighlights = [] := by
  refine ⟨?_, by decide, by decide, by decide, by decide⟩
  intro s e ranges
  simp [isInsideCodeBlock, List.any_eq_true, Bool.and_eq_true, decide_eq_true_eq]

/-- C8: code-block range detection is line-oriented.  A 3-backtick line
closes an open backtick block (emitting its range) and opens a block when
none is open; same for 3-tilde lines and wave blocks; a mismatched fence line
inside an open block neither closes it nor opens a new one; any other line
only advances the position; an unclosed fence at end of document yields a
range extending to the document end; and inline single-backtick spans are
added as ranges independently of the fence scan. -/
theorem claim_C8_code_block_line_scan :
    (∀ acc line, startsWith3 btChar line = true → acc.blockTy = some FenceTy.backtick →
        fenceStep acc line =
          { ranges := acc.ranges ++ [⟨acc.blockStart.getD 0, acc.pos + line.length⟩]
            blockStart := none
            blockTy := none
            pos := acc.pos + line.length + 1 }) ∧
    (∀ acc line, startsWith3 btChar line = true → acc.blockStart = none →
        acc.blockTy = none →
        fenceStep acc line =
          { acc with
            blockStart := some acc.pos
            blockTy := some FenceTy.backtick
            pos := acc.pos + line.length + 1 }) ∧
    (∀ acc line st, startsWith3 btChar line = true → acc.blockTy = some FenceTy.wave →
        acc.blockStart = some st →
        fenceStep acc line = { acc with pos := acc.pos + line.length + 1 }) ∧
    (∀ acc line, startsWith3 '~' line = true → startsWith3 btChar line = false →
        acc.blockTy = some FenceTy.wave →
        fenceStep acc line =
          { ranges := acc.ranges ++ [⟨acc.blockStart.getD 0, acc.pos + line.length⟩]
            blockStart := none
            blockTy := none
            pos := acc.pos + line.length + 1 }) ∧
    (∀ acc line, startsWith3 '~' line = true → startsWith3 btChar line = false →
        acc.blockStart = none → acc.blockTy = none →
        fenceStep acc line =
          { acc with
            blockStart := some acc.pos
            blockTy := some FenceTy.wave
            pos := acc.pos + line.length + 1 }) ∧
    (∀ acc line st, startsWith3 '~' line = true → startsWith3 btChar line = false →
        acc.blockTy = some FenceTy.backtick → acc.blockStart = some st →
        fenceStep acc line = { acc with pos := acc.pos + line.length + 1 }) ∧
    (∀ acc line, startsWith3 btChar line = false → startsWith3 '~' line = false →
        fenceStep acc line = { acc with pos := acc.pos + line.length + 1 }) ∧
    (∀ content s,
        ((splitNl content).foldl fenceStep ⟨[], none, none, 0⟩).blockStart = some s →
        (⟨s, content.length⟩ : CRange) ∈ getCodeBlockRanges content) ∧
    (∀ content p, p ∈ execInlineCode content 0 →
        (⟨p.1, p.2⟩ : CRange) ∈ getCodeBlockRanges content) := by
  refine ⟨?_, ?_, ?_, ?_, ?_, ?_, ?_, ?_, ?_⟩
  · intro acc line h1 h2
    obtain ⟨rs, bs, bt, pos⟩ := acc
    simp only at h2
    simp [fenceStep, h1, h2]
  · intro acc line h1 h2 h3
    obtain ⟨rs, bs, bt, pos⟩ := acc
    simp only at h2 h3
    subst h2 h3
    simp [fenceStep, h1]
  · intro acc line st h1 h2 h3
    obtain ⟨rs, bs, bt, pos⟩ := acc
    simp only at h2 h3
    subst h2 h3
    simp [fenceStep, h1]
  · intro acc line h1 h2 h3
    obtain ⟨rs, bs, bt, pos⟩ := acc
    simp only at h3
    simp [fenceStep, h1, h2, h3]
  · intro acc line h1 h2 h3 h4
    obtain ⟨rs, bs, bt, pos⟩ := acc
    simp only at h3 h4
    subst h3 h4
    simp [fenceStep, h1, h2]
  · intro acc line st h1 h2 h3 h4
    obtain ⟨rs, bs, bt, pos⟩ := acc
    simp only at h3 h4
    subst h3 h4
    simp [fenceStep, h1, h2]
  · intro acc line h1 h2
    obtain ⟨rs, bs, bt, pos⟩ := acc
    simp [fenceStep, h1, h2]
  · intro content s h
    simp only [getCodeBlockRanges, h]
    simp
  · intro content p h
    simp only [getCodeBlockRanges]
    refine List.mem_append_right _ ?_
    exact List.mem_map_of_mem _ h

/-- C8 witness: a tilde fence line inside an open backtick block leaves the
scan state unchanged apart from the position. -/
theorem claim_C8_witness :
    fenceStep ⟨[], some 0, some FenceTy.backtick, 4⟩ ("~~~".toList) =
      { ranges := ([] : List CRange), blockStart := some 0
        blockTy := some FenceTy.backtick, pos := 8 } :=
  claim_C8_code_block_line_scan.2.2.2.2.2.1 ⟨[], some 0, some FenceTy.backtick, 4⟩
    ("~~~".toList) 0 (by decide) (by decide) rfl rfl

/-- C1: the identity reconciler tries the exact tier, then the fuzzy-position
tier, then the unique-text tier, in that order; any returned prior record is
a not-yet-consumed record of the file with the occurrence's text and comment
flag (each prior is consumed at most once since its id enters the used set);
a matched occurrence carries over the prior record's id and `createdAt` while
the positional/footnote/type fields take current-scan values, and an
unmatched occurrence becomes a new record carrying the freshly supplied id.
Concretely, with prior records of text `same` at offsets 10 and 500 and a
re-scan finding `==same==` at offsets 10 and 700, the offset-10 occurrence
keeps id `A` (tier 1) and the offset-700 occurrence receives the fresh id
(tier 2 fails since 200 > 50; tier 3 fails since the text is duplicated). -/
theorem claim_C1_identity_reconciler :
    (∀ ex used t s e c h, tierExactFind ex used t s e c = some h →
        findExistingHighlight ex used t s e c = some h) ∧
    (∀ ex used t s e c h, tierExactFind ex used t s e c = none →
        tierFuzzyFind ex used t s c = some h →
        findExistingHighlight ex used t s e c = some h) ∧
    (∀ ex used t s e c, tierExactFind ex used t s e c = none →
        tierFuzzyFind ex used t s c = none →
        findExistingHighlight ex used t s e c = tierUniqueFind ex used t c) ∧
    (∀ ex used t s e c h, findExistingHighlight ex used t s e c = some h →
        h ∈ ex ∧ used.contains h.id = false ∧ h.text = t ∧ h.isNativeComment = some c) ∧
    (∀ fp now content e m fns T, e.createdAt = some T → T ≠ 0 →
        (carriedRecord fp now content e m fns).id = e.id ∧
        (carriedRecord fp now content e m fns).createdAt = some T ∧
        (carriedRecord fp now content e m fns).startOffset = m.index ∧
        (carriedRecord fp now content e m fns).endOffset = m.index + m.len ∧
        (carriedRecord fp now content e m fns).footnoteContents = some fns ∧
        (carriedRecord fp now content e m fns).type = some m.mtype.toHType) ∧
    (∀ fp mtime content i m fns, (newRecord fp mtime content i m fns).id = i) ∧
    ((detectAndStoreMarkdownHighlights sameContent "f.md" 5000 9999 freshIds
        [samePrior "A" 10 18 1111, samePrior "B" 500 508 2222]).newHighlights.map
          (fun h => (h.id, h.createdAt, h.startOffset)) =
      [("A", some 1111, 10), ("fresh0", some 5700, 700)]) := by
  refine ⟨?_, ?_, ?_, ?_, ?_, ?_, by decide⟩
  · intro ex used t s e c h hx
    simp [findExistingHighlight, hx]
  · intro ex used t s e c h hx hf
    simp [findExistingHighlight, hx, hf]
  · intro ex used t s e c hx hf
    simp [findExistingHighlight, hx, hf]
  · intro ex used t s e c h hh
    exact findExisting_sound ex used t s e c h hh
  · intro fp now content e m fns T hT hT0
    refine ⟨rfl, ?_, rfl, rfl, rfl, rfl⟩
    simp [carriedRecord, jsOrNow, hT, hT0]
  · intro fp mtime content i m fns
    rfl

/-- C1 witness: a prior record with matching text, offsets and flag is found
by the reconciler (tier 1 at a concrete input). -/
theorem claim_C1_witness :
    findExistingHighlight [samePrior "A" 10 18 1111] [] ("same".toList) 10 18 false =
      some (samePrior "A" 10 18 1111) :=
  claim_C1_identity_reconciler.1 [samePrior "A" 10 18 1111] [] ("same".toList) 10 18 false
    (samePrior "A" 10 18 1111) (by decide)

/-- C9: in the record set produced by one parse, with a fresh-id supply that
is injective and avoids the prior ids (the model of `generateId`'s
randomness), every record's id is unique in the file, every record satisfies
`startOffset < endOffset`, and every comment-type record's footnote contents
equal exactly the one-element list of its own text. -/
theorem claim_C9_invariants :
    ∀ content fp mtime now sup prior,
      Function.Injective sup → (∀ n, sup n ∉ prior.map (fun h => h.id)) →
      (((detectAndStoreMarkdownHighlights content fp mtime now sup prior).newHighlights.map
          (fun h => h.id)).Nodup) ∧
      (∀ h ∈ (detectAndStoreMarkdownHighlights content fp mtime now sup prior).newHighlights,
        h.startOffset < h.endOffset) ∧
      (∀ h ∈ (detectAndStoreMarkdownHighlights content fp mtime now sup prior).newHighlights,
        h.type = some HType.comment → h.footnoteContents = some [h.text]) := by
  intro content fp mtime now sup prior hinj hfresh
  refine ⟨?_, ?_, ?_⟩
  · simpa only [detectAndStoreMarkdownHighlights] using
      (emitLoop_ids content fp mtime now sup (extractFootnotes content)
        (adjPass content (scannedMatches content) 0).2 prior hinj hfresh
        (adjPass content (scannedMatches content) 0).1 0 [] 0).1
  · intro h hh
    simp only [detectAndStoreMarkdownHighlights] at hh
    obtain ⟨m, hm, hs, he, _⟩ := emitLoop_mem_shape _ _ _ _ _ _ _ _ _ _ _ _ _ hh
    have := passMatches_len_pos content m hm
    omega
  · intro h hh htype
    simp only [detectAndStoreMarkdownHighlights] at hh
    obtain ⟨m, hm, _, _, htext, hty, _, hcomm⟩ :=
      emitLoop_mem_shape _ _ _ _ _ _ _ _ _ _ _ _ _ hh
    have hmt0 : m.mtype.toHType = HType.comment := Option.some.inj (hty.symm.trans htype)
    have hmt : m.mtype = MType.comment := by
      cases hh2 : m.mtype
      · rw [hh2] at hmt0; simp [MType.toHType] at hmt0
      · rfl
    rw [hcomm hmt, htext]

/-- C9 witness: the invariants instantiated at a one-highlight document with
the injective replicate-id supply and no prior records. -/
theorem claim_C9_witness :
    (((detectAndStoreMarkdownHighlights "==a==".toList "f.md" 0 0 replIds []).newHighlights.map
        (fun h => h.id)).Nodup) ∧
    (∀ h ∈ (detectAndStoreMarkdownHighlights "==a==".toList "f.md" 0 0 replIds
        []).newHighlights, h.startOffset < h.endOffset) ∧
    (∀ h ∈ (detectAndStoreMarkdownHighlights "==a==".toList "f.md" 0 0 replIds
        []).newHighlights, h.type = some HType.comment → h.footnoteContents = some [h.text]) :=
  claim_C9_invariants "==a==".toList "f.md" 0 0 replIds [] replIds_injective (by simp)

/-- C2: re-running the full detection pipeline on identical, unchanged text
(with any modification time, clock and id supply for the second run, and a
first-run id supply that is injective and avoids the prior ids) yields a
record list with the same normalized serialization as the one the first run
stored, so the second run's change flag is false and it neither replaces the
stored list nor triggers persistence. -/
theorem claim_C2_idempotence :
    ∀ content fp mtime1 now1 sup1 mtime2 now2 sup2 prior,
      Function.Injective sup1 → (∀ n, sup1 n ∉ prior.map (fun h => h.id)) →
      normalizeList (detectAndStoreMarkdownHighlights content fp mtime2 now2 sup2
          (detectAndStoreMarkdownHighlights content fp mtime1 now1 sup1
            prior).newHighlights).newHighlights =
        normalizeList (detectAndStoreMarkdownHighlights content fp mtime1 now1 sup1
          prior).newHighlights ∧
      (detectAndStoreMarkdownHighlights content fp mtime2 now2 sup2
        (detectAndStoreMarkdownHighlights content fp mtime1 now1 sup1
          prior).newHighlights).changed = false := by
  intro content fp mtime1 now1 sup1 mtime2 now2 sup2 prior hinj hfresh
  have hnodup := (emitLoop_ids content fp mtime1 now1 sup1 (extractFootnotes content)
    (adjPass content (scannedMatches content) 0).2 prior hinj hfresh
    (adjPass content (scannedMatches content) 0).1 0 [] 0).1
  have hfix := emitLoop_fix content fp mtime1 now1 mtime2 now2 sup1 sup2
    (extractFootnotes content) (adjPass content (scannedMatches content) 0).2 prior
    (adjPass content (scannedMatches content) 0).1 0 [] 0 [] [] 0
    (by intro x; simp) (by simpa using hnodup)
  rw [List.nil_append] at hfix
  constructor
  · rw [detect_unfold content fp mtime1 now1 sup1 prior]
    rw [detect_unfold content fp mtime2 now2 sup2]
    exact hfix
  · rw [detect_unfold content fp mtime1 now1 sup1 prior]
    rw [detect_unfold content fp mtime2 now2 sup2]
    simp only []
    rw [hfix]
    simp

/-- C2 witness: idempotence instantiated at a concrete document, with the
injective replicate-id supply for the first run and arbitrary parameters for
the second. -/
theorem claim_C2_witness :
    normalizeList (detectAndStoreMarkdownHighlights "==a==".toList "f.md" 3 4 freshIds
        (detectAndStoreMarkdownHighlights "==a==".toList "f.md" 1 2 replIds
          []).newHighlights).newHighlights =
      normalizeList (detectAndStoreMarkdownHighlights "==a==".toList "f.md" 1 2 replIds
        []).newHighlights ∧
    (detectAndStoreMarkdownHighlights "==a==".toList "f.md" 3 4 freshIds
      (detectAndStoreMarkdownHighlights "==a==".toList "f.md" 1 2 replIds
        []).newHighlights).changed = false :=
  claim_C2_idempotence "==a==".toList "f.md" 1 2 replIds 3 4 freshIds []
    replIds_injective (by simp)

end Apostils
